import Mathlib

/-!
# Verification of the ViT ONNX export script's configuration resolver

A shallow embedding of `export.py` from neuralmagic/pytorch-image-models:
the `ExportArgs` dataclass with its `__post_init__` validation
(checkpoint/config existence checks, config derivation, `image_shape`
normalization, `save_dir` default, filename derivation), and the call
sequence of the `export` routine.

Strings are modelled as `List Char` (`Chars`) so that the Python string
primitives the script relies on (`str.rfind`, `str.split`, `str.rstrip`,
`os.path.dirname`, `os.path.splitext`, `os.path.join`,
`pathlib.PurePosixPath` parsing, `Path.with_suffix`, `Path.name`) can be
embedded faithfully and reasoned about by structural induction.  The
filesystem is an explicit predicate on rendered path strings, mirroring
`Path.exists`.
-/

set_option maxRecDepth 4000

deriving instance DecidableEq for Except

namespace ExportScript

/-- Python strings, as lists of characters. -/
abbrev Chars := List Char

/-! ## Python string primitives -/

/-- Index of the last occurrence of `c` in `l` (Python `str.rfind`,
with `none` for Python's `-1`). -/
def lastIdxOf : Chars → Char → Option Nat
  | [], _ => none
  | a :: as, c =>
    match lastIdxOf as c with
    | some i => some (i + 1)
    | none => if a = c then some (0 : Nat) else none

/-- Python `str.split(c)`: split on every occurrence of `c`, keeping
empty pieces (`"".split(c) = [""]`); `List.splitOn` has exactly these
semantics. -/
def splitOnChar (c : Char) (s : Chars) : List Chars := s.splitOn c

/-- Python `str.rstrip(c)`: drop trailing occurrences of `c`. -/
def rstripChar (s : Chars) (c : Char) : Chars :=
  (s.reverse.dropWhile (· = c)).reverse

/-! ## `pathlib.PurePosixPath`

A parsed POSIX path: a root (`""`, `"/"`, or — POSIX's special case —
`"//"`) and the list of components, with empty and `"."` components
dropped, exactly as `pathlib`'s flavour parser does. -/

/-- The root of a POSIX path: relative, absolute, or the POSIX
double-slash root that `pathlib` preserves. -/
inductive Root where
  | rel : Root
  | abs : Root
  | dabs : Root
  deriving DecidableEq, Repr

/-- The characters a `Root` renders to. -/
def Root.chars : Root → Chars
  | .rel => []
  | .abs => ['/']
  | .dabs => ['/', '/']

/-- A parsed `pathlib.PurePosixPath`. -/
structure PyPath where
  root : Root
  parts : List Chars
  deriving DecidableEq, Repr

/-- The root of a raw path string, per `_PosixFlavour.splitroot`:
exactly two leading slashes give the `"//"` root, any other positive
number gives `"/"`. -/
def parseRoot (s : Chars) : Root :=
  if s.take 2 = ['/', '/'] then
    if s.take 3 = ['/', '/', '/'] then .abs else .dabs
  else if s.take 1 = ['/'] then .abs
  else .rel

/-- `pathlib` path parsing: split on `/`, drop empty and `"."`
components, record the root. -/
def parsePath (s : Chars) : PyPath :=
  { root := parseRoot s
    parts := (splitOnChar '/' s).filter (fun x => x ≠ [] ∧ x ≠ ['.']) }

/-- `str(path)`: the root followed by the components joined with `/`;
the empty relative path renders as `"."`. -/
def strOfPath (p : PyPath) : Chars :=
  if p.root = .rel ∧ p.parts = [] then ['.']
  else p.root.chars ++ List.intercalate ['/'] p.parts

/-- `Path.name`: the final component, or empty for a bare root. -/
def nameOf (p : PyPath) : Chars := p.parts.getLast?.getD []

/-! ## `os.path` primitives -/

/-- `os.path.dirname` (posixpath): everything up to the last `/`,
with trailing slashes stripped unless the head is all slashes. -/
def dirnameChars (s : Chars) : Chars :=
  match lastIdxOf s '/' with
  | none => []
  | some j =>
    let head := s.take (j + 1)
    if head.all (· = '/') then head else rstripChar head '/'

/-- The extension part of `os.path.splitext` (posixpath): the slice
from the last dot, provided that dot lies after the last `/` and the
characters between the last `/` and it are not all dots (so a leading
dot of the final component never starts an extension). -/
def splitextExt (s : Chars) : Chars :=
  match lastIdxOf s '.' with
  | none => []
  | some d =>
    let fstart := match lastIdxOf s '/' with
      | some j => j + 1
      | none => 0
    if fstart ≤ d then
      if ((s.drop fstart).take (d - fstart)).any (· ≠ '.') then s.drop d
      else []
    else []

/-- `os.path.join a b` (posixpath, two arguments): `b` if it is
absolute, otherwise `a` and `b` joined with a `/` unless `a` is empty
or already ends with one. -/
def joinPath (a b : Chars) : Chars :=
  match b with
  | '/' :: _ => b
  | _ =>
    if a = [] ∨ a.getLast? = some '/' then a ++ b
    else a ++ '/' :: b

/-! ## Suffix replacement (`Path.with_suffix`)

`Path.suffix` is the slice of the name from its last dot, provided that
dot is neither the first nor the last character of the name;
`with_suffix(".onnx")` removes it (when present) and appends `".onnx"`,
and raises `ValueError` when the name is empty. -/

/-- The characters of the literal `".onnx"`. -/
def onnxExt : Chars := ['.', 'o', 'n', 'n', 'x']

/-- The characters of the literal `"args.yaml"`. -/
def argsYaml : Chars := ['a', 'r', 'g', 's', '.', 'y', 'a', 'm', 'l']

/-- The characters of the literal `"onnx"`. -/
def onnxDir : Chars := ['o', 'n', 'n', 'x']

/-- The name with its `Path.suffix` replaced by `".onnx"` (appended
when the name has no suffix). -/
def replaceSuffixOnnx (n : Chars) : Chars :=
  match lastIdxOf n '.' with
  | some i => if 0 < i ∧ i + 1 < n.length then n.take i ++ onnxExt else n ++ onnxExt
  | none => n ++ onnxExt

/-! ## The raw invocation parameters and the resolved configuration

`RawParams` mirrors the argument set `parse_args` hands to
`ExportArgs(**vars(args))`: `checkpoint` is a required string, the
optional string arguments default to `None` (`Option`), and
`__post_init__` treats `None` and the empty string alike (Python
falsiness). `ExportArgs` is the dataclass after `__post_init__` has
run. -/

/-- The raw parameters, as `parse_args` produces them. -/
structure RawParams where
  checkpoint : String
  config : Option String
  recipe : Option String
  no_qat_conv : Bool
  batch_size : Int
  image_shape : List Int
  save_dir : Option String
  filename : Option String
  deriving DecidableEq, Repr

/-- Raw parameters with only the checkpoint set, every other argument
at its `parse_args` default. -/
def mkRaw (checkpoint : String) : RawParams :=
  ⟨checkpoint, none, none, false, 1, [3, 550, 550], none, none⟩

/-- The errors `__post_init__` can raise: `FileNotFoundError` carrying
the missing path's rendered string, and the `ValueError` of
`with_suffix` on an empty name. -/
inductive ResolveError where
  | fileNotFound (path : Chars)
  | valueError
  deriving DecidableEq, Repr

/-- The resolved configuration after `__post_init__`. -/
structure ExportArgs where
  checkpoint : PyPath
  config : PyPath
  recipe : Option String
  no_qat_conv : Bool
  batch_size : Int
  image_shape : List Int
  save_dir : Chars
  filename : Chars
  deriving DecidableEq, Repr

/-- The raw config string (line 105): the supplied value when truthy,
else `os.path.dirname(checkpoint) + "/args.yaml"`. -/
def configChars (ckpt : PyPath) (config : Option String) : Chars :=
  match config with
  | some c =>
    if c.toList = [] then dirnameChars (strOfPath ckpt) ++ '/' :: argsYaml
    else c.toList
  | none => dirnameChars (strOfPath ckpt) ++ '/' :: argsYaml

/-- The resolved save directory (lines 114-115): `"onnx"` when the
supplied value is falsy. -/
def saveDirChars (save_dir : Option String) : Chars :=
  match save_dir with
  | some s => if s.toList = [] then onnxDir else s.toList
  | none => onnxDir

/-- The filename derived from the checkpoint (line 121),
`str(checkpoint.with_suffix(".onnx").name)`; `with_suffix` raises
`ValueError` when the checkpoint path has an empty name. -/
def derivedFilename (ckpt : PyPath) : Except ResolveError Chars :=
  if nameOf ckpt = [] then .error .valueError
  else .ok (replaceSuffixOnnx (nameOf ckpt))

/-- The resolved filename (lines 116-121): a truthy supplied filename
gets `".onnx"` appended when `os.path.splitext` finds no extension and
is kept unchanged otherwise; a falsy one is derived from the
checkpoint. -/
def resolvedFilename (ckpt : PyPath) (filename : Option String) : Except ResolveError Chars :=
  match filename with
  | some f =>
    if f.toList = [] then derivedFilename ckpt
    else if splitextExt f.toList = [] then .ok (f.toList ++ onnxExt)
    else .ok f.toList
  | none => derivedFilename ckpt

/-- `ExportArgs.__post_init__` (lines 94-121) over an explicit
filesystem: normalize the checkpoint to a path and require it to
exist; derive the config when falsy and require it to exist; keep
`image_shape`'s elements in order (`tuple(...)`); default `save_dir`;
resolve the filename. -/
def resolve (fs : Chars → Bool) (raw : RawParams) : Except ResolveError ExportArgs :=
  let ckpt := parsePath raw.checkpoint.toList
  if fs (strOfPath ckpt) = false then .error (.fileNotFound (strOfPath ckpt))
  else
    let cfg := parsePath (configChars ckpt raw.config)
    if fs (strOfPath cfg) = false then .error (.fileNotFound (strOfPath cfg))
    else
      match resolvedFilename ckpt raw.filename with
      | .error e => .error e
      | .ok fn =>
        .ok { checkpoint := ckpt, config := cfg, recipe := raw.recipe,
              no_qat_conv := raw.no_qat_conv, batch_size := raw.batch_size,
              image_shape := raw.image_shape,
              save_dir := saveDirChars raw.save_dir, filename := fn }

/-! ## The `export` routine's call trace

`export` (lines 206-242) is straight-line code: each external
collaborator is invoked exactly once, with arguments drawn from the
resolved configuration. We record the invocation sequence. -/

/-- One invocation of an external collaborator by `export`. -/
inductive ExternalCall where
  | createModel (configPath : PyPath)
  | recipeFromYaml (recipe : Option String)
  | applyManager
  | loadCheckpoint (checkpoint : PyPath)
  | exportOnnx (filePath : Chars) (batchShape : List Int) (convertQat : Bool)
  deriving DecidableEq, Repr

/-- The sequence of external-collaborator invocations `export` makes:
model construction from the config, `ScheduledModifierManager.from_yaml`
on `args.recipe` (line 230), `manager.apply` (line 231), checkpoint
loading, and the ONNX export at `os.path.join(save_dir, filename)` with
batch shape `(batch_size, *image_shape)` and `convert_qat = not
no_qat_conv`. -/
def exportCalls (args : ExportArgs) : List ExternalCall :=
  [ .createModel args.config,
    .recipeFromYaml args.recipe,
    .applyManager,
    .loadCheckpoint args.checkpoint,
    .exportOnnx (joinPath args.save_dir args.filename)
      (args.batch_size :: args.image_shape) (! args.no_qat_conv) ]

/-! ## Spec-side definitions

Written from the spec's words, to be compared with what the code
computes. -/

/-- Spec side (claim C2): the sibling file `args.yaml` in the
checkpoint's own directory — same root, last component replaced by
`args.yaml`. -/
def specSiblingConfig (ckpt : PyPath) : PyPath :=
  { root := ckpt.root, parts := ckpt.parts.dropLast ++ [argsYaml] }

/-- A valid path component: nonempty, not `"."`, slash-free. -/
def validPart (x : Chars) : Prop := x ≠ [] ∧ x ≠ ['.'] ∧ '/' ∉ x

/-! ## Concrete fixtures

Filesystems and invocations used to instantiate the theorems: the
spec's end-to-end scenarios and the inputs exposing the divergences. -/

/-- A filesystem holding `ckpt/model.pth.tar` and `ckpt/args.yaml`
(scenario 1's layout). -/
def fs1 : Chars → Bool := fun s =>
  s = ("ckpt/model.pth.tar").toList || s = ("ckpt/args.yaml").toList

/-- A filesystem holding the bare file `model.pth.tar` in the working
directory and a root-level `/args.yaml`. -/
def fs2 : Chars → Bool := fun s =>
  s = ("model.pth.tar").toList || s = ("/args.yaml").toList

/-- A filesystem holding only `ckpt/model.pth.tar`. -/
def fs3 : Chars → Bool := fun s => s = ("ckpt/model.pth.tar").toList

/-- Scenario 1: `--checkpoint ./ckpt/model.pth.tar`, all else default. -/
def raw1 : RawParams := mkRaw ("./ckpt/model.pth.tar")

/-- The resolved configuration for scenario 1. -/
def args1 : ExportArgs :=
  ⟨⟨.rel, [("ckpt").toList, ("model.pth.tar").toList]⟩,
   ⟨.rel, [("ckpt").toList, ("args.yaml").toList]⟩,
   none, false, 1, [3, 550, 550], onnxDir, ("model.pth.onnx").toList⟩

/-- A checkpoint given as a bare filename, no directory component. -/
def raw2 : RawParams := mkRaw ("model.pth.tar")

/-- Scenario 1's checkpoint with `--filename model.txt`. -/
def raw3 : RawParams :=
  ⟨("./ckpt/model.pth.tar"), none, none, false, 1, [3, 550, 550], none, some ("model.txt")⟩

/-- Scenario 2: `--filename vit_base --save-dir exported`. -/
def raw4 : RawParams :=
  ⟨("./ckpt/model.pth.tar"), none, none, false, 1, [3, 550, 550],
   some ("exported"), some ("vit_base")⟩

/-- The resolved configuration for scenario 2. -/
def args4 : ExportArgs :=
  ⟨⟨.rel, [("ckpt").toList, ("model.pth.tar").toList]⟩,
   ⟨.rel, [("ckpt").toList, ("args.yaml").toList]⟩,
   none, false, 1, [3, 550, 550], ("exported").toList, ("vit_base.onnx").toList⟩

/-- Scenario 1's checkpoint with `--filename ""` (supplied but empty). -/
def raw4e : RawParams :=
  ⟨("./ckpt/model.pth.tar"), none, none, false, 1, [3, 550, 550], none, some ("")⟩

/-- Scenario 3: config explicitly given but the file is missing. -/
def raw6 : RawParams :=
  ⟨("./ckpt/model.pth.tar"), some ("missing/args.yaml"), none, false, 1,
   [3, 550, 550], none, none⟩

/-- An `image_shape` whose entries are out of any sensible numeric
range — resolution does not validate them. -/
def raw7 : RawParams :=
  ⟨("./ckpt/model.pth.tar"), none, none, false, 1, [-1, 0, 999], none, none⟩

/-- The resolved configuration for `raw7`. -/
def args7 : ExportArgs :=
  ⟨⟨.rel, [("ckpt").toList, ("model.pth.tar").toList]⟩,
   ⟨.rel, [("ckpt").toList, ("args.yaml").toList]⟩,
   none, false, 1, [-1, 0, 999], onnxDir, ("model.pth.onnx").toList⟩

/-- Scenario 1's checkpoint with `--filename .onnx`. -/
def raw9 : RawParams :=
  ⟨("./ckpt/model.pth.tar"), none, none, false, 1, [3, 550, 550], none, some (".onnx")⟩

/-- The resolved configuration for `raw9`. -/
def args9 : ExportArgs :=
  ⟨⟨.rel, [("ckpt").toList, ("model.pth.tar").toList]⟩,
   ⟨.rel, [("ckpt").toList, ("args.yaml").toList]⟩,
   none, false, 1, [3, 550, 550], onnxDir, (".onnx.onnx").toList⟩

/-! ## Lemmas: `lastIdxOf` -/

theorem lastIdxOf_eq_none (c : Char) (s : Chars) (h : c ∉ s) : lastIdxOf s c = none := by
  induction s with
  | nil => rfl
  | cons a as ih =>
    have ha : a ≠ c := fun e => h (e ▸ List.mem_cons_self a as)
    have has : c ∉ as := fun m => h (List.mem_cons_of_mem a m)
    simp [lastIdxOf, ih has, ha]

theorem lastIdxOf_append_right (xs ys : Chars) (c : Char) (i : Nat)
    (h : lastIdxOf ys c = some i) :
    lastIdxOf (xs ++ ys) c = some (xs.length + i) := by
  induction xs with
  | nil => simpa using h
  | cons a as ih =>
    rw [List.cons_append]
    simp only [lastIdxOf]
    rw [ih]
    simp [Nat.succ_add]

theorem lastIdxOf_append_left (xs ys : Chars) (c : Char)
    (h : lastIdxOf ys c = none) :
    lastIdxOf (xs ++ ys) c = lastIdxOf xs c := by
  induction xs with
  | nil => simpa using h
  | cons a as ih =>
    rw [List.cons_append]
    simp only [lastIdxOf]
    rw [ih]

theorem lastIdxOf_cons_self (c : Char) (s : Chars) (h : c ∉ s) :
    lastIdxOf (c :: s) c = some 0 := by
  simp [lastIdxOf, lastIdxOf_eq_none c s h]

/-! ## Lemmas: `splitOnChar` and `List.splitOn` -/

theorem splitOn_not_mem (c : Char) (s : Chars) : ∀ x ∈ s.splitOn c, c ∉ x := by
  induction s with
  | nil =>
    intro x hx
    have he : x = [] := by
      have h0 : ([] : Chars).splitOn c = [[]] := rfl
      rw [h0] at hx
      simpa using hx
    simp [he]
  | cons a as ih =>
    intro x hx
    simp only [List.splitOn] at hx ih
    rw [List.splitOnP_cons] at hx
    by_cases hac : a = c
    · rw [if_pos (by simp [hac])] at hx
      rcases List.mem_cons.mp hx with he | hm
      · simp [he]
      · exact ih x hm
    · rw [if_neg (by simp [hac])] at hx
      rcases hsp : List.splitOnP (· == c) as with _ | ⟨h0, t0⟩
      · exact ((List.splitOnP_ne_nil _ as) hsp).elim
      · rw [hsp] at hx ih
        rw [List.modifyHead_cons] at hx
        rcases List.mem_cons.mp hx with he | hm
        · subst he
          intro hmem
          rcases List.mem_cons.mp hmem with e | e
          · exact hac e.symm
          · exact ih h0 (List.mem_cons_self h0 t0) e
        · exact ih x (List.mem_cons_of_mem h0 hm)

/-! ## Lemmas: `List.intercalate` with a slash separator -/

theorem intercalate_single (d : Chars) : List.intercalate ['/'] [d] = d := by
  simp [List.intercalate, List.intersperse]

theorem intercalate_cons_ne_nil (d : Chars) (ds : List Chars) (hds : ds ≠ []) :
    List.intercalate ['/'] (d :: ds) = d ++ '/' :: List.intercalate ['/'] ds := by
  cases ds with
  | nil => exact absurd rfl hds
  | cons e es => simp [List.intercalate, List.intersperse]

theorem intercalate_append_single (ds : List Chars) (y : Chars) (hds : ds ≠ []) :
    List.intercalate ['/'] (ds ++ [y]) =
      List.intercalate ['/'] ds ++ '/' :: y := by
  induction ds with
  | nil => exact absurd rfl hds
  | cons d ds' ih =>
    cases ds' with
    | nil =>
      rw [List.cons_append, List.nil_append,
        intercalate_cons_ne_nil d [y] (by simp), intercalate_single, intercalate_single]
    | cons e es =>
      rw [List.cons_append,
        intercalate_cons_ne_nil d (e :: es ++ [y]) (by simp),
        intercalate_cons_ne_nil d (e :: es) (by simp),
        ih (by simp), List.append_assoc]
      rfl

/-- A nonempty slash-free component list renders to a string ending in
the last character of its last component. -/
theorem intercalate_ends (ds : List Chars) (hds : ds ≠ [])
    (hv : ∀ x ∈ ds, x ≠ [] ∧ '/' ∉ x) :
    ∃ B z, List.intercalate ['/'] ds = B ++ [z] ∧ z ≠ '/' := by
  induction ds with
  | nil => exact absurd rfl hds
  | cons d ds' ih =>
    cases ds' with
    | nil =>
      obtain ⟨hne, hns⟩ := hv d (List.mem_cons_self d [])
      refine ⟨d.dropLast, d.getLast hne, ?_, ?_⟩
      · rw [intercalate_single, List.dropLast_append_getLast hne]
      · exact fun e => hns (e ▸ List.getLast_mem hne)
    | cons e es =>
      obtain ⟨B, z, hBz, hz⟩ := ih (by simp)
        (fun x hx => hv x (List.mem_cons_of_mem d hx))
      refine ⟨d ++ '/' :: B, z, ?_, hz⟩
      rw [intercalate_cons_ne_nil d (e :: es) (by simp), hBz]
      simp

/-! ## Lemmas: `rstripChar` -/

theorem rstripChar_append_ne (V : Chars) (z c : Char) (hz : z ≠ c) :
    rstripChar (V ++ [z]) c = V ++ [z] := by
  simp [rstripChar, List.dropWhile_cons, hz]

theorem rstripChar_append_self (V : Chars) (c : Char) :
    rstripChar (V ++ [c]) c = rstripChar V c := by
  simp [rstripChar, List.dropWhile_cons]

/-! ## Lemmas: `parseRoot`, `parsePath`, `strOfPath` -/

theorem parseRoot_cons_ne (a : Char) (t : Chars) (ha : a ≠ '/') :
    parseRoot (a :: t) = .rel := by
  simp [parseRoot, List.take_succ_cons, ha]

theorem parseRoot_abs (a : Char) (t : Chars) (ha : a ≠ '/') :
    parseRoot ('/' :: a :: t) = .abs := by
  simp [parseRoot, List.take_succ_cons, ha]

theorem parseRoot_dabs (a : Char) (t : Chars) (ha : a ≠ '/') :
    parseRoot ('/' :: '/' :: a :: t) = .dabs := by
  simp [parseRoot, List.take_succ_cons, ha]

/-- A nonempty list of valid components renders (via `intercalate`) to
a string starting with the first component's first character. -/
theorem intercalate_head (d : Chars) (ds : List Chars) (a : Char) (as : Chars)
    (hd : d = a :: as) :
    ∃ rest, List.intercalate ['/'] (d :: ds) = a :: rest := by
  cases ds with
  | nil => exact ⟨as, by rw [intercalate_single, hd]⟩
  | cons e es =>
    exact ⟨as ++ '/' :: List.intercalate ['/'] (e :: es),
      by rw [intercalate_cons_ne_nil d (e :: es) (by simp), hd]; rfl⟩

/-- Parsing a rendered path with a given root and nonempty valid
component list recovers the root and the components. -/
theorem parsePath_render (r : Root) (l : List Chars) (hl : l ≠ [])
    (hv : ∀ x ∈ l, validPart x) :
    parsePath (r.chars ++ List.intercalate ['/'] l) = ⟨r, l⟩ := by
  obtain ⟨d, ds, hdds⟩ := List.exists_cons_of_ne_nil hl
  subst hdds
  obtain ⟨hdne, hddot, hdns⟩ := hv d (List.mem_cons_self d ds)
  obtain ⟨a, as, hd⟩ := List.exists_cons_of_ne_nil hdne
  have hasl : a ≠ '/' := fun e => hdns (by rw [hd, e]; exact List.mem_cons_self '/' as)
  obtain ⟨rest, hrest⟩ := intercalate_head d ds a as hd
  have hsplit : List.splitOn '/' (List.intercalate ['/'] (d :: ds)) = d :: ds := by
    have := List.splitOn_intercalate (d :: ds) '/'
      (fun x hx => (hv x hx).2.2) (by simp)
    simpa using this
  have hfilter : (d :: ds).filter (fun x => decide (x ≠ [] ∧ x ≠ ['.'])) = d :: ds := by
    rw [List.filter_eq_self]
    intro x hx
    obtain ⟨h1, h2, -⟩ := hv x hx
    simp [h1, h2]
  cases r with
  | rel =>
    rw [Root.chars, List.nil_append]
    unfold parsePath
    rw [hrest, parseRoot_cons_ne a rest hasl, ← hrest]
    simp only [splitOnChar]
    rw [hsplit]
    simpa using hfilter
  | abs =>
    rw [Root.chars]
    unfold parsePath
    rw [hrest]
    simp only [List.cons_append, List.nil_append]
    rw [parseRoot_abs a rest hasl, ← hrest]
    simp only [splitOnChar, List.splitOn]
    rw [List.splitOnP_cons, if_pos (by simp)]
    simp only [List.splitOn] at hsplit
    rw [hsplit, List.filter_cons_of_neg (by simp)]
    simpa using hfilter
  | dabs =>
    rw [Root.chars]
    unfold parsePath
    rw [hrest]
    simp only [List.cons_append, List.nil_append]
    rw [parseRoot_dabs a rest hasl, ← hrest]
    simp only [splitOnChar, List.splitOn]
    rw [List.splitOnP_cons, if_pos (by simp), List.splitOnP_cons, if_pos (by simp)]
    simp only [List.splitOn] at hsplit
    rw [hsplit, List.filter_cons_of_neg (by simp), List.filter_cons_of_neg (by simp)]
    simpa using hfilter

/-- Every component a parse produces is valid. -/
theorem parsePath_parts_valid (s : Chars) : ∀ x ∈ (parsePath s).parts, validPart x := by
  intro x hx
  unfold parsePath at hx
  simp only at hx
  have hmem := List.mem_of_mem_filter hx
  have hfl := List.of_mem_filter hx
  simp only [decide_eq_true_eq] at hfl
  exact ⟨hfl.1, hfl.2, splitOn_not_mem '/' s x hmem⟩

/-- A path with components renders without the `"."` special case. -/
theorem strOfPath_ne_nil (p : PyPath) (hp : p.parts ≠ []) :
    strOfPath p = p.root.chars ++ List.intercalate ['/'] p.parts := by
  unfold strOfPath
  rw [if_neg (by simp [hp])]

/-! ## Lemma: `os.path.dirname` of a rendered path -/

/-- `os.path.dirname` of a rendered path with a directory part strips
exactly the final component and its slash. -/
theorem dirname_render (r : Root) (ds : List Chars) (lst : Chars) (hds : ds ≠ [])
    (hv : ∀ x ∈ ds, validPart x) (hlst : '/' ∉ lst) :
    dirnameChars (r.chars ++ List.intercalate ['/'] (ds ++ [lst])) =
      r.chars ++ List.intercalate ['/'] ds := by
  have hinter := intercalate_append_single ds lst hds
  obtain ⟨B, z, hBz, hz⟩ := intercalate_ends ds hds
    (fun x hx => ⟨(hv x hx).1, (hv x hx).2.2⟩)
  set A : Chars := r.chars ++ List.intercalate ['/'] ds with hA
  have hfull : r.chars ++ List.intercalate ['/'] (ds ++ [lst]) = A ++ '/' :: lst := by
    rw [hinter, hA, List.append_assoc]
  rw [hfull]
  have hlast : lastIdxOf (A ++ '/' :: lst) '/' = some A.length := by
    have h0 : lastIdxOf ('/' :: lst) '/' = some 0 := lastIdxOf_cons_self '/' lst hlst
    rw [lastIdxOf_append_right A ('/' :: lst) '/' 0 h0]
    simp
  unfold dirnameChars
  rw [hlast]
  simp only
  have htake : (A ++ '/' :: lst).take (A.length + 1) = A ++ ['/'] := by
    have := @List.take_append Char A ('/' :: lst) 1
    simpa using this
  rw [htake]
  have hmem_z : z ∈ A ++ ['/'] := by
    rw [hA, hBz]
    exact List.mem_append_left _ (List.mem_append_right _
      (List.mem_append_right B (List.mem_cons_self z [])))
  rw [if_neg (by
    intro hall
    have := List.all_eq_true.mp hall z hmem_z
    exact hz (by simpa using this))]
  have hAz : A ++ ['/'] = (r.chars ++ B) ++ [z] ++ ['/'] := by
    simp [hA, hBz]
  rw [hAz, rstripChar_append_self, rstripChar_append_ne _ z '/' hz, hA, hBz]
  simp

/-! ## Lemma: inverting a successful resolution -/

/-- What a successful `resolve` says about each field. -/
theorem resolve_ok_inv (fs : Chars → Bool) (raw : RawParams) (args : ExportArgs)
    (h : resolve fs raw = .ok args) :
    args.checkpoint = parsePath raw.checkpoint.toList ∧
    args.config = parsePath (configChars (parsePath raw.checkpoint.toList) raw.config) ∧
    args.recipe = raw.recipe ∧
    args.no_qat_conv = raw.no_qat_conv ∧
    args.batch_size = raw.batch_size ∧
    args.image_shape = raw.image_shape ∧
    args.save_dir = saveDirChars raw.save_dir ∧
    resolvedFilename (parsePath raw.checkpoint.toList) raw.filename = .ok args.filename := by
  unfold resolve at h
  simp only at h
  split at h
  · exact absurd h (by simp)
  split at h
  · exact absurd h (by simp)
  split at h
  · exact absurd h (by simp)
  next fn heq =>
    cases h
    exact ⟨rfl, rfl, rfl, rfl, rfl, rfl, rfl, heq⟩

/-- A successful `derivedFilename` is `replaceSuffixOnnx` of the name. -/
theorem derivedFilename_ok (ckpt : PyPath) (fn : Chars)
    (h : derivedFilename ckpt = .ok fn) : fn = replaceSuffixOnnx (nameOf ckpt) := by
  unfold derivedFilename at h
  split at h
  · exact absurd h (by simp)
  · cases h; rfl

/-- A falsy filename argument falls back to the derived filename. -/
theorem resolvedFilename_falsy (ckpt : PyPath) (fopt : Option String)
    (hf : fopt = none ∨ fopt = some ("")) :
    resolvedFilename ckpt fopt = derivedFilename ckpt := by
  rcases hf with hf | hf <;> subst hf <;> rfl

/-- `replaceSuffixOnnx` always produces a string ending in `".onnx"`. -/
theorem replaceSuffixOnnx_ends (n : Chars) :
    ∃ stem, replaceSuffixOnnx n = stem ++ onnxExt := by
  unfold replaceSuffixOnnx
  split
  · split
    · exact ⟨_, rfl⟩
    · exact ⟨n, rfl⟩
  · exact ⟨n, rfl⟩

/-! ## The claims -/

/-- C5 (confirmed): for every raw parameter set whose checkpoint path
does not exist, resolution fails with a file-not-found error naming
the checkpoint — whatever the other arguments, and before the config
existence check can run (the error names the checkpoint even when the
config is missing too). -/
theorem missing_checkpoint_fails_first (fs : Chars → Bool) (raw : RawParams)
    (h : fs (strOfPath (parsePath raw.checkpoint.toList)) = false) :
    resolve fs raw =
      .error (.fileNotFound (strOfPath (parsePath raw.checkpoint.toList))) := by
  unfold resolve
  simp only [h]
  simp

/-- C5 witness: a missing checkpoint on an empty filesystem. -/
theorem missing_checkpoint_fails_first_witness :
    resolve (fun _ => false) (mkRaw ("missing.pth")) =
      .error (.fileNotFound (("missing.pth").toList)) :=
  (missing_checkpoint_fails_first (fun _ => false) (mkRaw ("missing.pth")) rfl).trans
    (by decide)

/-- C6 (confirmed): when the checkpoint exists but the (explicit or
derived) config path does not, resolution fails with a file-not-found
error naming the config path. -/
theorem missing_config_fails (fs : Chars → Bool) (raw : RawParams)
    (hc : fs (strOfPath (parsePath raw.checkpoint.toList)) = true)
    (hg : fs (strOfPath (parsePath
        (configChars (parsePath raw.checkpoint.toList) raw.config))) = false) :
    resolve fs raw =
      .error (.fileNotFound (strOfPath (parsePath
        (configChars (parsePath raw.checkpoint.toList) raw.config)))) := by
  unfold resolve
  simp only [hc, hg]
  simp

/-- C6 witness: scenario 3 — explicit config `missing/args.yaml`
absent from the filesystem; the error names it. -/
theorem missing_config_fails_witness :
    resolve fs3 raw6 = .error (.fileNotFound (("missing/args.yaml").toList)) :=
  (missing_config_fails fs3 raw6 (by decide) (by decide)).trans (by decide)

/-- C7 (confirmed): a 3-element `image_shape` sequence resolves to the
same three elements in the same order (`tuple(...)`), with no numeric
range validation. -/
theorem image_shape_normalized (fs : Chars → Bool) (raw : RawParams) (args : ExportArgs)
    (h3 : raw.image_shape.length = 3) (h : resolve fs raw = .ok args) :
    args.image_shape = raw.image_shape ∧ args.image_shape.length = 3 := by
  obtain ⟨-, -, -, -, -, him, -, -⟩ := resolve_ok_inv fs raw args h
  exact ⟨him, him ▸ h3⟩

/-- C7 witness: the out-of-range shape `[-1, 0, 999]` passes through
untouched. -/
theorem image_shape_normalized_witness :
    args7.image_shape = [-1, 0, 999] ∧ resolve fs1 raw7 = .ok args7 :=
  ⟨(image_shape_normalized fs1 raw7 args7 (by decide) (by decide)).1.trans (by decide),
   by decide⟩

/-- C8 (confirmed): an absent or empty `save_dir` resolves to the
literal `"onnx"`; a non-empty one is kept unchanged. -/
theorem save_dir_defaulted (fs : Chars → Bool) (raw : RawParams) (args : ExportArgs)
    (h : resolve fs raw = .ok args) :
    ((raw.save_dir = none ∨ raw.save_dir = some ("")) → args.save_dir = onnxDir) ∧
    (∀ s : String, raw.save_dir = some s → s.toList ≠ [] → args.save_dir = s.toList) := by
  obtain ⟨-, -, -, -, -, -, hsd, -⟩ := resolve_ok_inv fs raw args h
  constructor
  · rintro (hs | hs) <;> rw [hs] at hsd
    · exact hsd
    · exact hsd.trans rfl
  · intro s hs hne
    rw [hs] at hsd
    simp only [saveDirChars] at hsd
    rw [if_neg hne] at hsd
    exact hsd

/-- C8 witness: scenario 1 defaults to `"onnx"`; scenario 2 keeps
`"exported"`. -/
theorem save_dir_defaulted_witness :
    args1.save_dir = onnxDir ∧ args4.save_dir = ("exported").toList :=
  ⟨(save_dir_defaulted fs1 raw1 args1 (by decide)).1 (Or.inl rfl),
   (save_dir_defaulted fs1 raw4 args4 (by decide)).2 ("exported") rfl (by decide)⟩

/-- C10 (confirmed): `export` invokes the recipe applier
(`ScheduledModifierManager.from_yaml`) on the configuration's recipe
value for every configuration — in particular when `recipe` is `None`;
no branch skips it. -/
theorem recipe_always_applied (args : ExportArgs) :
    ExternalCall.recipeFromYaml args.recipe ∈ exportCalls args := by
  unfold exportCalls
  exact List.mem_cons_of_mem _ (List.mem_cons_self _ _)

/-- C1 counterexample: for checkpoint `./ckpt/model.pth.tar` with no
filename supplied, the code resolves the filename to `model.pth.onnx`
(`with_suffix` replaces only the final suffix `.tar`), not the claimed
`model.onnx`. -/
theorem default_filename_not_all_suffixes :
    (resolve fs1 raw1).toOption.map ExportArgs.filename =
      some (("model.pth.onnx").toList) ∧
    ("model.pth.onnx").toList ≠ ("model.onnx").toList := by
  constructor
  · decide
  · decide

/-- C1 (amended): with `output_filename` absent (or empty), the
resolved filename is the checkpoint's base name with its final pathlib
suffix replaced by `".onnx"` (appended when there is no suffix) — for
`./ckpt/model.pth.tar` that is `model.pth.onnx`. -/
theorem default_filename_replaces_final_suffix (fs : Chars → Bool) (raw : RawParams)
    (args : ExportArgs)
    (hf : raw.filename = none ∨ raw.filename = some (""))
    (h : resolve fs raw = .ok args) :
    args.filename = replaceSuffixOnnx (nameOf (parsePath raw.checkpoint.toList)) := by
  obtain ⟨-, -, -, -, -, -, -, hfn⟩ := resolve_ok_inv fs raw args h
  rw [resolvedFilename_falsy _ _ hf] at hfn
  exact derivedFilename_ok _ _ hfn

/-- C1 witness: scenario 1 resolves the filename to `model.pth.onnx`. -/
theorem default_filename_replaces_final_suffix_witness :
    args1.filename = ("model.pth.onnx").toList ∧ resolve fs1 raw1 = .ok args1 :=
  ⟨(default_filename_replaces_final_suffix fs1 raw1 args1 (Or.inl rfl)
      (by decide)).trans (by decide),
   by decide⟩

/-- C2 counterexample: for the bare checkpoint filename
`model.pth.tar`, `os.path.dirname` is empty, so the derived config is
the root-level absolute path `/args.yaml` — not the sibling
`args.yaml` in the checkpoint's (current) directory. -/
theorem bare_checkpoint_config_not_sibling :
    (resolve fs2 raw2).toOption.map ExportArgs.config =
      some ⟨Root.abs, [argsYaml]⟩ ∧
    (⟨Root.abs, [argsYaml]⟩ : PyPath) ≠
      specSiblingConfig (parsePath (raw2.checkpoint).toList) := by
  constructor
  · decide
  · decide

/-- C2 (amended): for an existing checkpoint path with a directory
component (at least two path components) and absent config, the
resolved config is the sibling `args.yaml` in the checkpoint's own
directory; a bare filename instead derives the root-level
`/args.yaml`. -/
theorem derived_config_is_sibling (fs : Chars → Bool) (raw : RawParams)
    (args : ExportArgs)
    (hc : raw.config = none ∨ raw.config = some (""))
    (h2 : 2 ≤ (parsePath raw.checkpoint.toList).parts.length)
    (h : resolve fs raw = .ok args) :
    args.config = specSiblingConfig (parsePath raw.checkpoint.toList) := by
  obtain ⟨-, hcfg, -, -, -, -, -, -⟩ := resolve_ok_inv fs raw args h
  set p := parsePath raw.checkpoint.toList with hp
  have hv : ∀ x ∈ p.parts, validPart x := parsePath_parts_valid raw.checkpoint.toList
  have hne : p.parts ≠ [] := by
    intro h0
    rw [h0] at h2
    simp at h2
  obtain ⟨ds, lst, hparts, hds⟩ : ∃ ds lst, p.parts = ds ++ [lst] ∧ ds ≠ [] := by
    refine ⟨p.parts.dropLast, p.parts.getLast hne,
      (List.dropLast_append_getLast hne).symm, ?_⟩
    intro h0
    have hlen := congrArg List.length (List.dropLast_append_getLast hne)
    rw [h0] at hlen
    simp at hlen
    omega
  have hcc : configChars p raw.config =
      dirnameChars (strOfPath p) ++ '/' :: argsYaml := by
    rcases hc with hc | hc <;> rw [hc] <;> rfl
  have hvds : ∀ x ∈ ds, validPart x := fun x hx =>
    hv x (by rw [hparts]; exact List.mem_append_left _ hx)
  have hvlst : '/' ∉ lst :=
    (hv lst (by rw [hparts]; exact List.mem_append_right _ (List.mem_cons_self _ _))).2.2
  have hdir : dirnameChars (strOfPath p) =
      p.root.chars ++ List.intercalate ['/'] ds := by
    rw [strOfPath_ne_nil p hne, hparts]
    exact dirname_render p.root ds lst hds hvds hvlst
  have hargs : configChars p raw.config =
      p.root.chars ++ List.intercalate ['/'] (ds ++ [argsYaml]) := by
    rw [hcc, hdir, intercalate_append_single ds argsYaml hds, List.append_assoc]
  rw [hargs] at hcfg
  have hparse : parsePath (p.root.chars ++ List.intercalate ['/'] (ds ++ [argsYaml])) =
      ⟨p.root, ds ++ [argsYaml]⟩ := by
    apply parsePath_render
    · simp
    · intro x hx
      rcases List.mem_append.mp hx with hx | hx
      · exact hvds x hx
      · rw [List.mem_singleton.mp hx]
        exact ⟨by decide, by decide, by decide⟩
  rw [hparse] at hcfg
  rw [hcfg]
  unfold specSiblingConfig
  rw [hparts, List.dropLast_concat]

/-- C2 witness: scenario 1 — config resolves to `ckpt/args.yaml`, the
sibling of the checkpoint. -/
theorem derived_config_is_sibling_witness :
    args1.config = specSiblingConfig (parsePath (raw1.checkpoint).toList) ∧
    resolve fs1 raw1 = .ok args1 :=
  ⟨derived_config_is_sibling fs1 raw1 args1 (Or.inl rfl) (by decide) (by decide),
   by decide⟩

/-- C3 counterexample: the supplied filename `model.txt` has an
extension, is kept verbatim, and does not end with `".onnx"`. -/
theorem supplied_extension_breaks_onnx_invariant :
    (resolve fs1 raw3).toOption.map ExportArgs.filename =
      some (("model.txt").toList) ∧
    onnxExt.isSuffixOf (("model.txt").toList) = false := by
  constructor
  · decide
  · decide

/-- C3 (amended): the resolved filename ends with `".onnx"` whenever
the supplied filename was absent, empty, or extensionless; a supplied
filename with an extension is kept verbatim and need not end with
`".onnx"`. -/
theorem filename_ends_onnx_unless_has_extension (fs : Chars → Bool) (raw : RawParams)
    (args : ExportArgs)
    (hf : raw.filename = none ∨ ∃ f, raw.filename = some f ∧
          (f.toList = [] ∨ splitextExt f.toList = []))
    (h : resolve fs raw = .ok args) :
    onnxExt.isSuffixOf args.filename = true := by
  obtain ⟨-, -, -, -, -, -, -, hfn⟩ := resolve_ok_inv fs raw args h
  have hend : ∃ stem, args.filename = stem ++ onnxExt := by
    rcases hf with hf | ⟨f, hf, hcase⟩
    · rw [resolvedFilename_falsy _ _ (Or.inl hf)] at hfn
      exact (derivedFilename_ok _ _ hfn) ▸ replaceSuffixOnnx_ends _
    · rw [hf] at hfn
      simp only [resolvedFilename] at hfn
      by_cases hfe : f.toList = []
      · rw [if_pos hfe] at hfn
        exact (derivedFilename_ok _ _ hfn) ▸ replaceSuffixOnnx_ends _
      · rcases hcase with hc | hc
        · exact absurd hc hfe
        · rw [if_neg hfe, if_pos hc] at hfn
          injection hfn with h'
          exact ⟨f.toList, h'.symm⟩
  obtain ⟨stem, hs⟩ := hend
  rw [hs, List.isSuffixOf_iff_suffix]
  exact ⟨stem, rfl⟩

/-- C3 witness: scenario 1's derived filename ends with `".onnx"`. -/
theorem filename_ends_onnx_unless_has_extension_witness :
    onnxExt.isSuffixOf args1.filename = true ∧ resolve fs1 raw1 = .ok args1 :=
  ⟨filename_ends_onnx_unless_has_extension fs1 raw1 args1 (Or.inl rfl) (by decide),
   by decide⟩

/-- C4 counterexample: the empty string is a supplied filename without
an extension, yet resolution treats it as absent (Python falsiness)
and derives `model.pth.onnx` from the checkpoint instead of appending
`".onnx"` to the supplied value. -/
theorem empty_supplied_filename_not_appended :
    splitextExt (("").toList) = [] ∧
    (resolve fs1 raw4e).toOption.map ExportArgs.filename =
      some (("model.pth.onnx").toList) ∧
    ("model.pth.onnx").toList ≠ ("").toList ++ onnxExt := by
  refine ⟨by decide, by decide, by decide⟩

/-- C4 (amended): for every supplied *non-empty* filename: with no
`os.path.splitext` extension, `".onnx"` is appended; with any
extension (correct or not), the value is kept unchanged. -/
theorem supplied_filename_resolution (fs : Chars → Bool) (raw : RawParams)
    (args : ExportArgs) (f : String)
    (hf : raw.filename = some f) (hne : f.toList ≠ [])
    (h : resolve fs raw = .ok args) :
    (splitextExt f.toList = [] → args.filename = f.toList ++ onnxExt) ∧
    (splitextExt f.toList ≠ [] → args.filename = f.toList) := by
  obtain ⟨-, -, -, -, -, -, -, hfn⟩ := resolve_ok_inv fs raw args h
  rw [hf] at hfn
  simp only [resolvedFilename] at hfn
  rw [if_neg hne] at hfn
  constructor
  · intro hext
    rw [if_pos hext] at hfn
    injection hfn with h'
    exact h'.symm
  · intro hext
    rw [if_neg hext] at hfn
    injection hfn with h'
    exact h'.symm

/-- C4 witness: scenario 2 — `vit_base` has no extension and resolves
to `vit_base.onnx`. -/
theorem supplied_filename_resolution_witness :
    args4.filename = ("vit_base").toList ++ onnxExt ∧ resolve fs1 raw4 = .ok args4 :=
  ⟨(supplied_filename_resolution fs1 raw4 args4 ("vit_base") rfl (by decide)
      (by decide)).1 (by decide),
   by decide⟩

/-- C9 (confirmed): a supplied filename whose final component starts
with a dot and contains no further dot (written `a ++ '.' :: b` with
`a` empty or slash-terminated and `b` free of dots and slashes) is
extensionless to `os.path.splitext`, so resolution appends `".onnx"`
even though the name may textually end in `".onnx"` already. -/
theorem dot_leading_name_gets_second_extension (fs : Chars → Bool) (raw : RawParams)
    (args : ExportArgs) (f : String) (a b : Chars)
    (hf : raw.filename = some f)
    (hab : f.toList = a ++ '.' :: b)
    (ha : a = [] ∨ ∃ c, a = c ++ ['/'])
    (hbdot : '.' ∉ b) (hbsl : '/' ∉ b)
    (h : resolve fs raw = .ok args) :
    args.filename = f.toList ++ onnxExt := by
  obtain ⟨-, -, -, -, -, -, -, hfn⟩ := resolve_ok_inv fs raw args h
  rw [hf] at hfn
  have hnil : f.toList ≠ [] := by rw [hab]; simp
  have hdot : lastIdxOf f.toList '.' = some a.length := by
    rw [hab, lastIdxOf_append_right a ('.' :: b) '.' 0 (lastIdxOf_cons_self '.' b hbdot)]
    simp
  have hext : splitextExt f.toList = [] := by
    unfold splitextExt
    rw [hdot]
    rcases ha with ha | ⟨c, ha⟩
    · have hsl : lastIdxOf f.toList '/' = none := by
        rw [hab, ha, List.nil_append]
        apply lastIdxOf_eq_none
        intro hm
        rcases List.mem_cons.mp hm with e | e
        · exact absurd e (by decide)
        · exact hbsl e
      rw [hsl]
      simp [ha]
    · have hnos : '/' ∉ '.' :: b := by
        intro hm
        rcases List.mem_cons.mp hm with e | e
        · exact absurd e (by decide)
        · exact hbsl e
      have hsl : lastIdxOf f.toList '/' = some c.length := by
        rw [hab, ha, List.append_assoc, List.singleton_append,
          lastIdxOf_append_right c ('/' :: '.' :: b) '/' 0
            (lastIdxOf_cons_self '/' ('.' :: b) hnos)]
        simp
      rw [hsl]
      simp [ha]
  simp only [resolvedFilename] at hfn
  rw [if_neg hnil, if_pos hext] at hfn
  injection hfn with h'
  exact h'.symm

/-- C9 witness: `--filename .onnx` resolves to `.onnx.onnx`. -/
theorem dot_leading_name_gets_second_extension_witness :
    args9.filename = (".onnx.onnx").toList ∧ resolve fs1 raw9 = .ok args9 :=
  ⟨(dot_leading_name_gets_second_extension fs1 raw9 args9 (".onnx") []
      (("onnx").toList) rfl (by decide) (Or.inl rfl) (by decide) (by decide)
      (by decide)).trans (by decide),
   by decide⟩

end ExportScript
